import Mathlib

/-!
Verification development for the SeekerScholar academic-paper retrieval
service: a shallow embedding of the two-stage retrieval engine (query
normalizer, Stage-1 lexical candidate generator, Stage-2 re-rankers,
min-max score normalization and fusion, LRU result cache, pipeline
orchestrator) and of the React frontend request handlers, together with
theorems settling the specified properties.  Scores are embedded as
rationals; machine floats are modelled by exact arithmetic.  The backend
engine source is not part of the repository snapshot, so its definitions
are modelled from the specification; the frontend handlers are embedded
from src/frontend/src/App.tsx.
-/

namespace SeekerScholar

/-- Modelled from the spec: the Paper record of the data model, owned by
the Artifact Store. -/
structure Paper where
  id : Nat
  title : String
  abstract : String
  link : String
deriving Repr, DecidableEq

/-- Modelled from the spec: a per-stage candidate score record. -/
structure CandidateScore where
  id : Nat
  raw_score : ℚ
deriving Repr, DecidableEq

/-- Modelled from the spec: a normalized score record with value intended
to lie in the unit interval. -/
structure NormalizedScore where
  id : Nat
  value : ℚ
deriving Repr, DecidableEq

/-- The externally visible result unit. -/
structure SearchResult where
  id : Nat
  title : String
  abstract : String
  link : String
  score : ℚ
  method : String
deriving Repr, DecidableEq

/-- Whitespace test on a character, used by the normalizer embedding. -/
def isWsChar (c : Char) : Bool := c.isWhitespace

/-- Modelled from the spec: splitting a character list into maximal
whitespace-free words, with explicit fuel for structural recursion. -/
def wordsAux : Nat → List Char → List (List Char)
  | 0, _ => []
  | _, [] => []
  | n + 1, cs =>
    match cs.dropWhile isWsChar with
    | [] => []
    | c1 :: cs1 =>
      (c1 :: cs1).takeWhile (fun c => !isWsChar c) ::
        wordsAux n ((c1 :: cs1).dropWhile (fun c => !isWsChar c))

/-- The words of a query, in order. -/
def queryWords (cs : List Char) : List (List Char) := wordsAux cs.length cs

/-- Modelled from the spec: the fixed character bound of the query
normalizer. -/
def queryCharBound : Nat := 2048

/-- Modelled from the spec: the Query Normalizer, which trims, collapses
whitespace and truncates to at most 2048 characters; the engine source is
absent from the snapshot. -/
def normalizeQuery (s : String) : String :=
  String.mk ((List.intercalate [' '] (queryWords s.data)).take queryCharBound)

/-- True when the string is empty or consists of whitespace only. -/
def isBlank (s : String) : Bool := s.data.all isWsChar

/-- Minimum of a head value and a list of rationals. -/
def listMin (q : ℚ) (l : List ℚ) : ℚ := l.foldl min q

/-- Maximum of a head value and a list of rationals. -/
def listMax (q : ℚ) (l : List ℚ) : ℚ := l.foldl max q

/-- Modelled from the spec: min-max normalization over a candidate-score
set; when every raw score is equal the normalized value is defined as 1
for every candidate. -/
def minMaxNormalize : List CandidateScore → List NormalizedScore
  | [] => []
  | c :: cs =>
    if listMax c.raw_score (cs.map CandidateScore.raw_score)
        = listMin c.raw_score (cs.map CandidateScore.raw_score) then
      (c :: cs).map (fun x => ⟨x.id, 1⟩)
    else
      (c :: cs).map (fun x =>
        ⟨x.id, (x.raw_score - listMin c.raw_score (cs.map CandidateScore.raw_score))
          / (listMax c.raw_score (cs.map CandidateScore.raw_score)
              - listMin c.raw_score (cs.map CandidateScore.raw_score))⟩)

/-- The normalized values aligned with the input candidate order. -/
def minMaxValues (l : List CandidateScore) : List ℚ :=
  (minMaxNormalize l).map NormalizedScore.value

/-- Modelled from the spec: ranking order for candidate scores, by
descending raw score with ties broken by ascending paper id. -/
def rankRel (a b : CandidateScore) : Prop :=
  b.raw_score < a.raw_score ∨ (a.raw_score = b.raw_score ∧ a.id ≤ b.id)

instance rankRelDecidable : DecidableRel rankRel := fun a b => by
  unfold rankRel; infer_instance

instance rankRelTotal : IsTotal CandidateScore rankRel where
  total a b := by
    unfold rankRel
    rcases lt_trichotomy a.raw_score b.raw_score with h | h | h
    · right; left; exact h
    · rcases Nat.le_total a.id b.id with h2 | h2
      · left; right; exact ⟨h, h2⟩
      · right; right; exact ⟨h.symm, h2⟩
    · left; left; exact h

instance rankRelTrans : IsTrans CandidateScore rankRel where
  trans a b c hab hbc := by
    unfold rankRel at *
    rcases hab with h | ⟨h, h2⟩ <;> rcases hbc with g | ⟨g, g2⟩
    · left; exact g.trans h
    · left; exact g ▸ h
    · left; exact h ▸ g
    · right; exact ⟨h.trans g, h2.trans g2⟩

/-- Modelled from the spec: the immutable Artifact Store collaborator.
The lexical scorer, the dense-similarity scorer (embedding provider plus
cosine over the vector table, a black box to the engine) and the
precomputed authority vector are total functions; the readiness flags
model per-artifact availability.  The backend source is absent from the
snapshot. -/
structure ArtifactStore where
  corpus : List Nat
  paperById : Nat → Paper
  lexScore : String → Nat → ℚ
  denseSim : String → Nat → ℚ
  authorityScore : Nat → ℚ
  lexReady : Bool
  denseReady : Bool
  authReady : Bool

/-- Modelled from the spec: the Stage-1 candidate pool bound of 300. -/
def candidatePoolBound : Nat := 300

/-- Modelled from the spec: Stage-1 scores the whole corpus with the
lexical index and keeps the top candidates, descending by score with ties
by ascending id. -/
def stage1 (store : ArtifactStore) (q : String) : List CandidateScore :=
  (List.insertionSort rankRel
    (store.corpus.map (fun i => ⟨i, store.lexScore q i⟩))).take candidatePoolBound

/-- Modelled from the spec: the dense-similarity Stage-2 path, one raw
score per candidate, restricted to the candidate set. -/
def stage2Dense (store : ArtifactStore) (q : String) (cands : List CandidateScore) :
    List CandidateScore :=
  cands.map (fun c => ⟨c.id, store.denseSim q c.id⟩)

/-- Modelled from the spec: the authority Stage-2 path, a pure lookup per
candidate. -/
def stage2Auth (store : ArtifactStore) (cands : List CandidateScore) :
    List CandidateScore :=
  cands.map (fun c => ⟨c.id, store.authorityScore c.id⟩)

/-- Modelled from the spec: hybrid fusion weight of the normalized
lexical score. -/
def hybridLexWeight : ℚ := 0.30

/-- Modelled from the spec: hybrid fusion weight of the normalized
dense-similarity score. -/
def hybridDenseWeight : ℚ := 0.50

/-- Modelled from the spec: hybrid fusion weight of the normalized
authority score. -/
def hybridAuthWeight : ℚ := 0.20

/-- Modelled from the spec: the pagerank method combines normalized
lexical and normalized authority scores with a configurable split; the
spec leaves the exact ratio open, so it is kept as one tunable constant. -/
def pagerankLexWeight : ℚ := 0.50

/-- Weighted sum of two aligned normalized value lists over a candidate
list. -/
def fuse2 (w1 w2 : ℚ) : List CandidateScore → List ℚ → List ℚ → List CandidateScore
  | c :: cs, a :: la, b :: lb => ⟨c.id, w1 * a + w2 * b⟩ :: fuse2 w1 w2 cs la lb
  | _, _, _ => []

/-- Weighted sum of three aligned normalized value lists over a candidate
list. -/
def fuse3 (w1 w2 w3 : ℚ) :
    List CandidateScore → List ℚ → List ℚ → List ℚ → List CandidateScore
  | c :: cs, a :: la, b :: lb, d :: ld =>
      ⟨c.id, w1 * a + w2 * b + w3 * d⟩ :: fuse3 w1 w2 w3 cs la lb ld
  | _, _, _, _ => []

/-- Modelled from the spec: the closed method enumeration. -/
inductive Method
  | bm25
  | bert
  | pagerank
  | hybrid
deriving Repr, DecidableEq

/-- Modelled from the spec: parsing the method selector string. -/
def parseMethod : String → Option Method
  | "bm25" => some Method.bm25
  | "bert" => some Method.bert
  | "pagerank" => some Method.pagerank
  | "hybrid" => some Method.hybrid
  | _ => none

/-- Modelled from the spec: the engine error kinds. -/
inductive EngineError
  | validationError (msg : String)
  | resourceUnavailable (artifact : String)
  | upstreamFailure (msg : String)
deriving Repr, DecidableEq

/-- Modelled from the spec: Score Fusion per method over the Stage-1
candidate set: bm25 keeps the raw lexical scores, bert uses the
normalized dense scores, pagerank fuses normalized lexical and authority
scores, hybrid fuses all three with the configured weights. -/
def fusedScores (store : ArtifactStore) (q : String) (m : Method)
    (cands : List CandidateScore) : List CandidateScore :=
  match m with
  | Method.bm25 => cands
  | Method.bert =>
      (minMaxNormalize (stage2Dense store q cands)).map (fun n => ⟨n.id, n.value⟩)
  | Method.pagerank =>
      fuse2 pagerankLexWeight (1 - pagerankLexWeight) cands
        (minMaxValues cands) (minMaxValues (stage2Auth store cands))
  | Method.hybrid =>
      fuse3 hybridLexWeight hybridDenseWeight hybridAuthWeight cands
        (minMaxValues cands) (minMaxValues (stage2Dense store q cands))
        (minMaxValues (stage2Auth store cands))

/-- Modelled from the spec: the response record of the search contract. -/
structure SearchResponse where
  normalized_query : String
  method : String
  top_k : Int
  results : List SearchResult
deriving Repr, DecidableEq

/-- Formatting one scored candidate into the externally visible record. -/
def formatResult (store : ArtifactStore) (methodStr : String) (c : CandidateScore) :
    SearchResult :=
  ⟨c.id, (store.paperById c.id).title, (store.paperById c.id).abstract,
    (store.paperById c.id).link, c.raw_score, methodStr⟩

/-- Modelled from the spec: the ranked, truncated, formatted result list
computed from Stage-1, the method-dependent fusion, the final sort and the
top-k truncation (which clamps to the candidate-set size). -/
def rankedResults (store : ArtifactStore) (nq : String) (m : Method)
    (methodStr : String) (k : Int) : List SearchResult :=
  ((List.insertionSort rankRel (fusedScores store nq m (stage1 store nq))).take
    k.toNat).map (formatResult store methodStr)

/-- Modelled from the spec: the Retrieval Pipeline orchestrator.
Validation (empty query, bad method, non-positive top-k) happens before
any stage; artifact readiness is checked next; then Stage-1, the
method-dependent Stage-2 and fusion, the final sort and truncation run. -/
def searchEngine (store : ArtifactStore) (query methodStr : String) (k : Int) :
    Except EngineError SearchResponse :=
  if normalizeQuery query = "" then
    Except.error (EngineError.validationError "empty query")
  else
    match parseMethod methodStr with
    | none => Except.error (EngineError.validationError "invalid method")
    | some m =>
      if k ≤ 0 then
        Except.error (EngineError.validationError "top_k must be a positive integer")
      else if store.lexReady = false then
        Except.error (EngineError.resourceUnavailable "lexical index")
      else if (m = Method.bert ∨ m = Method.hybrid) ∧ store.denseReady = false then
        Except.error (EngineError.resourceUnavailable "vector table")
      else if (m = Method.pagerank ∨ m = Method.hybrid) ∧ store.authReady = false then
        Except.error (EngineError.resourceUnavailable "authority vector")
      else
        Except.ok ⟨normalizeQuery query, methodStr, k,
          rankedResults store (normalizeQuery query) m methodStr k⟩

/-- The result list of a search outcome, empty on error. -/
def resultsOf (r : Except EngineError SearchResponse) : List SearchResult :=
  match r with
  | Except.ok out => out.results
  | Except.error _ => []

/-- Final ordering on formatted results: descending score, ties by
ascending id. -/
def resultRel (a b : SearchResult) : Prop :=
  b.score < a.score ∨ (a.score = b.score ∧ a.id ≤ b.id)

/-- Modelled from the spec: the composite cache key. -/
structure CacheKey where
  normalized_query : String
  method : Method
  top_k : Int
deriving Repr, DecidableEq

/-- Modelled from the spec: a bounded least-recently-used cache; entries
are kept in recency order, most recent first. -/
structure LRUCache (K V : Type) where
  capacity : Nat
  entries : List (K × V)

/-- Modelled from the spec: cache lookup; on a hit the entry moves to
most-recently-used. -/
def LRUCache.get {K V : Type} [DecidableEq K] (c : LRUCache K V) (k : K) :
    Option V × LRUCache K V :=
  match c.entries.find? (fun e => decide (e.1 = k)) with
  | none => (none, c)
  | some e =>
      (some e.2, ⟨c.capacity, e :: c.entries.eraseP (fun x => decide (x.1 = k))⟩)

/-- Modelled from the spec: cache insertion; at capacity the single
least-recently-used entry is evicted before inserting. -/
def LRUCache.put {K V : Type} [DecidableEq K] (c : LRUCache K V) (k : K) (v : V) :
    LRUCache K V :=
  if c.entries.any (fun e => decide (e.1 = k)) then
    ⟨c.capacity, (k, v) :: c.entries.eraseP (fun e => decide (e.1 = k))⟩
  else if c.entries.length < c.capacity then
    ⟨c.capacity, (k, v) :: c.entries⟩
  else
    ⟨c.capacity, (k, v) :: c.entries.dropLast⟩

/-- Modelled from the spec: the fixed result-cache capacity. -/
def resultCacheCapacity : Nat := 256

/-- The result cache at startup. -/
def emptyResultCache : LRUCache CacheKey (List SearchResult) :=
  ⟨resultCacheCapacity, []⟩

/-- Modelled from the spec: the outcome of one pipeline run as seen by
the caller; cancellation is a distinct abandoned outcome, not an error
surfaced to the cache or to metrics. -/
inductive RequestOutcome
  | completed (out : SearchResponse)
  | failed (e : EngineError)
  | abandoned
deriving Repr

/-- Modelled from the spec: the pipeline state machine over one request
together with the result cache and a cooperative cancellation token:
Normalize, validation, CacheLookup; on a hit return the cached results
with refreshed recency; on a miss the token is checked at the suspension
point before the stages run, so an abandoned query and a failed query
leave the cache untouched, and only a completed fresh computation inserts
its results.  The backend engine source is absent from the snapshot. -/
def searchWithCache (store : ArtifactStore)
    (cache : LRUCache CacheKey (List SearchResult)) (query methodStr : String)
    (k : Int) (cancelled : Bool) :
    RequestOutcome × LRUCache CacheKey (List SearchResult) :=
  if normalizeQuery query = "" then
    (RequestOutcome.failed (EngineError.validationError "empty query"), cache)
  else
    match parseMethod methodStr with
    | none =>
        (RequestOutcome.failed (EngineError.validationError "invalid method"), cache)
    | some m =>
      if k ≤ 0 then
        (RequestOutcome.failed
          (EngineError.validationError "top_k must be a positive integer"), cache)
      else
        match (cache.get ⟨normalizeQuery query, m, k⟩).1 with
        | some res =>
            (RequestOutcome.completed ⟨normalizeQuery query, methodStr, k, res⟩,
              (cache.get ⟨normalizeQuery query, m, k⟩).2)
        | none =>
          if cancelled then (RequestOutcome.abandoned, cache)
          else
            match searchEngine store query methodStr k with
            | Except.error e => (RequestOutcome.failed e, cache)
            | Except.ok out =>
                (RequestOutcome.completed out,
                  cache.put ⟨normalizeQuery query, m, k⟩ out.results)

/-- Frontend state relevant to the App component: results, error message,
loading flag and extracted query, from src/frontend/src/App.tsx. -/
structure FrontendState where
  results : List SearchResult
  error : Option String
  loading : Bool
  extractedQuery : Option String
deriving Repr, DecidableEq

/-- Trimming leading and trailing whitespace from a character list,
embedding the guard of handleSearch in App.tsx. -/
def trimChars (cs : List Char) : List Char :=
  ((cs.dropWhile isWsChar).reverse.dropWhile isWsChar).reverse

/-- Embedding of the handleSearch guard in App.tsx: a request is issued
only when the trimmed query is non-empty. -/
def handleSearchFires (q : String) : Bool := !(trimChars q.data).isEmpty

/-- Embedding of handleCancelSearch in App.tsx: given whether a request
is in flight, returns the cleared state and whether the cancellation flag
was set. -/
def handleCancelSearch (hasActive : Bool) (st : FrontendState) : FrontendState × Bool :=
  if hasActive then
    ({ st with loading := false, error := none, results := [], extractedQuery := none },
      true)
  else
    ({ st with loading := false, error := none }, false)

/-- Embedding of the continuation of handleSearch in App.tsx that runs
once the request settles: the success and failure handlers guarded by the
cancellation flag, the abort signal and the current-controller check,
followed by the finally block that clears the loading flag. -/
def applySearchOutcome (isCancelled aborted isCurrent isAbortErr : Bool)
    (outcome : Except String (List SearchResult)) (st : FrontendState) :
    FrontendState :=
  let st1 :=
    match outcome with
    | Except.ok data =>
      if isCancelled || aborted then st
      else if !isCancelled && isCurrent && !aborted then { st with results := data }
      else st
    | Except.error msg =>
      if isAbortErr || aborted || isCancelled then st
      else if !isCancelled && isCurrent then { st with error := some msg }
      else st
  if isCurrent || isCancelled then { st1 with loading := false } else st1

/-- Splitting a character list at every dot, embedding the JavaScript
split on the dot character used by handleFileUpload in App.tsx. -/
def splitOnDot : List Char → List (List Char)
  | [] => [[]]
  | c :: cs =>
    let rest := splitOnDot cs
    if c = '.' then [] :: rest
    else
      match rest with
      | [] => [[c]]
      | w :: ws => (c :: w) :: ws

/-- Embedding of the extension computation of handleFileUpload in
App.tsx: lowercase the file name, split on dots and take the last
chunk. -/
def fileExt (name : String) : Option String :=
  ((splitOnDot (name.data.map Char.toLower)).map String.mk).getLast?

/-- The accepted upload extensions, from App.tsx. -/
def supportedTypes : List String := ["pdf", "docx", "doc", "txt"]

/-- The user-facing rejection message of handleFileUpload in App.tsx. -/
def uploadErrorMessage : String :=
  "Please upload a supported file type (PDF, DOCX, or TXT)"

/-- Outcome of a file-upload event: either a network request with the
selected method and top-k, or a rejection with no request. -/
inductive UploadOutcome
  | requestIssued (method : String) (top_k : Nat)
  | rejected
deriving Repr, DecidableEq

/-- Embedding of the validation prefix of handleFileUpload in App.tsx:
an unsupported or empty extension sets the error message and issues no
request; a supported one clears the state and issues the request. -/
def handleFileUpload (name method : String) (st : FrontendState) :
    UploadOutcome × FrontendState :=
  match fileExt name with
  | none => (UploadOutcome.rejected, { st with error := some uploadErrorMessage })
  | some e =>
    if e = "" ∨ e ∉ supportedTypes then
      (UploadOutcome.rejected, { st with error := some uploadErrorMessage })
    else
      (UploadOutcome.requestIssued method 10,
        { st with loading := true, error := none, results := [], extractedQuery := none })

/-- A small demonstration paper table. -/
def demoPaper (i : Nat) : Paper := ⟨i, "title", "abstract", "link"⟩

/-- A demonstration store with a five-paper corpus. -/
def demoStore : ArtifactStore :=
  ⟨[0, 1, 2, 3, 4], demoPaper, fun _ i => (i : ℚ), fun _ i => (i : ℚ),
    fun i => (i : ℚ), true, true, true⟩

/-- A demonstration store whose corpus has exactly 300 papers. -/
def bigStore : ArtifactStore :=
  ⟨List.range 300, demoPaper, fun _ _ => 0, fun _ _ => 0, fun _ => 0,
    true, true, true⟩

/-- A concrete candidate-score set for evaluation. -/
def demoScores : List CandidateScore := [⟨1, 2⟩, ⟨2, 2⟩, ⟨3, 2⟩]

/-- A cache over natural-number keys filled by inserting the 256 distinct
keys 0 to 255 in order. -/
def filledCache : LRUCache Nat Nat :=
  (List.range 256).foldl (fun c i => c.put i i) ⟨resultCacheCapacity, []⟩

/-- An initial frontend state. -/
def frontendState0 : FrontendState := ⟨[], none, false, none⟩

/-! ## Helper lemmas -/

theorem listMin_le_base (q : ℚ) (l : List ℚ) : listMin q l ≤ q := by
  induction l generalizing q with
  | nil => simp [listMin]
  | cons x xs ih =>
    have h := ih (min q x)
    simp only [listMin, List.foldl_cons] at h ⊢
    exact h.trans (min_le_left q x)

theorem listMin_le_mem (q : ℚ) (l : List ℚ) : ∀ x ∈ l, listMin q l ≤ x := by
  induction l generalizing q with
  | nil => intro x hx; cases hx
  | cons y ys ih =>
    intro x hx
    simp only [listMin, List.foldl_cons]
    rcases List.mem_cons.mp hx with rfl | hx2
    · exact (listMin_le_base (min q x) ys).trans (min_le_right q x)
    · exact ih (min q y) x hx2

theorem base_le_listMax (q : ℚ) (l : List ℚ) : q ≤ listMax q l := by
  induction l generalizing q with
  | nil => simp [listMax]
  | cons x xs ih =>
    have h := ih (max q x)
    simp only [listMax, List.foldl_cons] at h ⊢
    exact (le_max_left q x).trans h

theorem mem_le_listMax (q : ℚ) (l : List ℚ) : ∀ x ∈ l, x ≤ listMax q l := by
  induction l generalizing q with
  | nil => intro x hx; cases hx
  | cons y ys ih =>
    intro x hx
    simp only [listMax, List.foldl_cons]
    rcases List.mem_cons.mp hx with rfl | hx2
    · exact (le_max_right q x).trans (base_le_listMax (max q x) ys)
    · exact ih (max q y) x hx2

theorem listMin_eq_base (q : ℚ) (l : List ℚ) (h : ∀ x ∈ l, x = q) : listMin q l = q := by
  induction l with
  | nil => rfl
  | cons y ys ih =>
    have hy : y = q := h y (List.mem_cons_self y ys)
    simp only [listMin, List.foldl_cons, hy, min_self]
    exact ih (fun x hx => h x (List.mem_cons_of_mem y hx))

theorem listMax_eq_base (q : ℚ) (l : List ℚ) (h : ∀ x ∈ l, x = q) : listMax q l = q := by
  induction l with
  | nil => rfl
  | cons y ys ih =>
    have hy : y = q := h y (List.mem_cons_self y ys)
    simp only [listMax, List.foldl_cons, hy, max_self]
    exact ih (fun x hx => h x (List.mem_cons_of_mem y hx))

theorem unit_div_bounds (lo hi x : ℚ) (hlt : lo < hi) (hxlo : lo ≤ x) (hxhi : x ≤ hi) :
    0 ≤ (x - lo) / (hi - lo) ∧ (x - lo) / (hi - lo) ≤ 1 :=
  ⟨div_nonneg (sub_nonneg.mpr hxlo) (le_of_lt (sub_pos.mpr hlt)),
    (div_le_one (sub_pos.mpr hlt)).mpr (sub_le_sub_right hxhi lo)⟩

/-! ## Claim: normalization range -/

/-- C2: for every non-empty CandidateScore set, min-max normalization
yields a value in the closed unit interval for every id, and when all raw
scores are equal every normalized value equals exactly 1. -/
theorem minMaxNormalize_range (l : List CandidateScore) (hne : l ≠ []) :
    (∀ n ∈ minMaxNormalize l, 0 ≤ n.value ∧ n.value ≤ 1) ∧
    ((∀ a ∈ l, ∀ b ∈ l, a.raw_score = b.raw_score) →
      ∀ n ∈ minMaxNormalize l, n.value = 1) := by
  match l, hne with
  | c :: cs, _ =>
    constructor
    · intro n hn
      simp only [minMaxNormalize] at hn
      by_cases hdeg : listMax c.raw_score (cs.map CandidateScore.raw_score)
          = listMin c.raw_score (cs.map CandidateScore.raw_score)
      · rw [if_pos hdeg] at hn
        obtain ⟨x, _, rfl⟩ := List.mem_map.mp hn
        norm_num
      · rw [if_neg hdeg] at hn
        obtain ⟨x, hx, rfl⟩ := List.mem_map.mp hn
        have hle : listMin c.raw_score (cs.map CandidateScore.raw_score) ≤
            listMax c.raw_score (cs.map CandidateScore.raw_score) :=
          (listMin_le_base _ _).trans (base_le_listMax _ _)
        have hlt : listMin c.raw_score (cs.map CandidateScore.raw_score) <
            listMax c.raw_score (cs.map CandidateScore.raw_score) :=
          lt_of_le_of_ne hle (fun h => hdeg h.symm)
        have hxlo : listMin c.raw_score (cs.map CandidateScore.raw_score) ≤ x.raw_score := by
          rcases List.mem_cons.mp hx with rfl | hx2
          · exact listMin_le_base _ _
          · exact listMin_le_mem _ _ x.raw_score
              (List.mem_map_of_mem CandidateScore.raw_score hx2)
        have hxhi : x.raw_score ≤ listMax c.raw_score (cs.map CandidateScore.raw_score) := by
          rcases List.mem_cons.mp hx with rfl | hx2
          · exact base_le_listMax _ _
          · exact mem_le_listMax _ _ x.raw_score
              (List.mem_map_of_mem CandidateScore.raw_score hx2)
        exact unit_div_bounds _ _ _ hlt hxlo hxhi
    · intro hall n hn
      have hcs : ∀ x ∈ cs.map CandidateScore.raw_score, x = c.raw_score := by
        intro x hx
        obtain ⟨y, hy, rfl⟩ := List.mem_map.mp hx
        exact hall y (List.mem_cons_of_mem c hy) c (List.mem_cons_self c cs)
      have hdeg : listMax c.raw_score (cs.map CandidateScore.raw_score)
          = listMin c.raw_score (cs.map CandidateScore.raw_score) := by
        rw [listMin_eq_base _ _ hcs, listMax_eq_base _ _ hcs]
      simp only [minMaxNormalize, if_pos hdeg] at hn
      obtain ⟨x, _, rfl⟩ := List.mem_map.mp hn
      rfl

/-- Witness for the normalization-range claim at the concrete candidate
set demoScores. -/
theorem minMaxNormalize_range_witness :
    (0 ≤ (NormalizedScore.mk 1 1).value ∧ (NormalizedScore.mk 1 1).value ≤ 1) ∧
    (NormalizedScore.mk 1 1).value = 1 :=
  ⟨(minMaxNormalize_range demoScores (by decide)).1 ⟨1, 1⟩ (by decide),
    (minMaxNormalize_range demoScores (by decide)).2 (by decide) ⟨1, 1⟩ (by decide)⟩

theorem map_nid_of_mk (f : CandidateScore → ℚ) (l : List CandidateScore) :
    (l.map (fun c => NormalizedScore.mk c.id (f c))).map NormalizedScore.id
      = l.map CandidateScore.id := by
  induction l with
  | nil => rfl
  | cons c cs ih => simp only [List.map_cons, ih]

theorem map_cid_of_nmk (f : NormalizedScore → ℚ) (l : List NormalizedScore) :
    (l.map (fun n => CandidateScore.mk n.id (f n))).map CandidateScore.id
      = l.map NormalizedScore.id := by
  induction l with
  | nil => rfl
  | cons n ns ih => simp only [List.map_cons, ih]

theorem corpus_map_mk_id (f : Nat → ℚ) (l : List Nat) :
    (l.map (fun i => CandidateScore.mk i (f i))).map CandidateScore.id = l := by
  induction l with
  | nil => rfl
  | cons x xs ih => simp only [List.map_cons, ih]

theorem minMaxNormalize_map_id (l : List CandidateScore) :
    (minMaxNormalize l).map NormalizedScore.id = l.map CandidateScore.id := by
  cases l with
  | nil => rfl
  | cons c cs =>
    simp only [minMaxNormalize]
    split
    · exact map_nid_of_mk (fun _ => 1) (c :: cs)
    · exact map_nid_of_mk _ (c :: cs)

theorem minMaxNormalize_length (l : List CandidateScore) :
    (minMaxNormalize l).length = l.length := by
  have h := congrArg List.length (minMaxNormalize_map_id l)
  simpa using h

theorem minMaxValues_length (l : List CandidateScore) :
    (minMaxValues l).length = l.length := by
  simp [minMaxValues, minMaxNormalize_length]

theorem stage2Dense_map_id (store : ArtifactStore) (q : String)
    (cands : List CandidateScore) :
    (stage2Dense store q cands).map CandidateScore.id = cands.map CandidateScore.id := by
  induction cands with
  | nil => rfl
  | cons c cs ih => simp only [stage2Dense, List.map_cons] at ih ⊢; rw [ih]

theorem stage2Auth_map_id (store : ArtifactStore) (cands : List CandidateScore) :
    (stage2Auth store cands).map CandidateScore.id = cands.map CandidateScore.id := by
  induction cands with
  | nil => rfl
  | cons c cs ih => simp only [stage2Auth, List.map_cons] at ih ⊢; rw [ih]

theorem stage2Dense_length (store : ArtifactStore) (q : String)
    (cands : List CandidateScore) :
    (stage2Dense store q cands).length = cands.length := by
  simp [stage2Dense]

theorem stage2Auth_length (store : ArtifactStore) (cands : List CandidateScore) :
    (stage2Auth store cands).length = cands.length := by
  simp [stage2Auth]

theorem fuse2_map_id (w1 w2 : ℚ) (cs : List CandidateScore) :
    ∀ (la lb : List ℚ), la.length = cs.length → lb.length = cs.length →
      (fuse2 w1 w2 cs la lb).map CandidateScore.id = cs.map CandidateScore.id := by
  induction cs with
  | nil =>
    intro la lb h1 h2
    rw [List.length_nil, List.length_eq_zero] at h1 h2
    subst h1; subst h2
    rfl
  | cons c cs ih =>
    intro la lb h1 h2
    cases la with
    | nil => simp at h1
    | cons a la =>
      cases lb with
      | nil => simp at h2
      | cons b lb =>
        simp only [fuse2, List.map_cons]
        rw [ih la lb (by simpa using h1) (by simpa using h2)]

theorem fuse3_map_id (w1 w2 w3 : ℚ) (cs : List CandidateScore) :
    ∀ (la lb ld : List ℚ), la.length = cs.length → lb.length = cs.length →
      ld.length = cs.length →
      (fuse3 w1 w2 w3 cs la lb ld).map CandidateScore.id = cs.map CandidateScore.id := by
  induction cs with
  | nil =>
    intro la lb ld h1 h2 h3
    rw [List.length_nil, List.length_eq_zero] at h1 h2 h3
    subst h1; subst h2; subst h3
    rfl
  | cons c cs ih =>
    intro la lb ld h1 h2 h3
    cases la with
    | nil => simp at h1
    | cons a la =>
      cases lb with
      | nil => simp at h2
      | cons b lb =>
        cases ld with
        | nil => simp at h3
        | cons d ld =>
          simp only [fuse3, List.map_cons]
          rw [ih la lb ld (by simpa using h1) (by simpa using h2) (by simpa using h3)]

theorem fusedScores_map_id (store : ArtifactStore) (q : String) (m : Method)
    (cands : List CandidateScore) :
    (fusedScores store q m cands).map CandidateScore.id
      = cands.map CandidateScore.id := by
  cases m with
  | bm25 => rfl
  | bert =>
    show ((minMaxNormalize (stage2Dense store q cands)).map
        (fun n => CandidateScore.mk n.id n.value)).map CandidateScore.id
      = cands.map CandidateScore.id
    rw [map_cid_of_nmk (fun n => n.value), minMaxNormalize_map_id, stage2Dense_map_id]
  | pagerank =>
    exact fuse2_map_id _ _ cands _ _ (minMaxValues_length cands)
      (by rw [minMaxValues_length, stage2Auth_length])
  | hybrid =>
    exact fuse3_map_id _ _ _ cands _ _ _ (minMaxValues_length cands)
      (by rw [minMaxValues_length, stage2Dense_length])
      (by rw [minMaxValues_length, stage2Auth_length])

theorem fusedScores_length (store : ArtifactStore) (q : String) (m : Method)
    (cands : List CandidateScore) :
    (fusedScores store q m cands).length = cands.length := by
  have h := congrArg List.length (fusedScores_map_id store q m cands)
  simpa using h

theorem stage1_length (store : ArtifactStore) (q : String) :
    (stage1 store q).length = min candidatePoolBound store.corpus.length := by
  simp [stage1, List.length_take,
    (List.perm_insertionSort rankRel
      (store.corpus.map (fun i => ⟨i, store.lexScore q i⟩))).length_eq]

theorem stage1_perm_of_small (store : ArtifactStore) (q : String)
    (h : store.corpus.length < candidatePoolBound) :
    ((stage1 store q).map CandidateScore.id).Perm store.corpus := by
  unfold stage1
  rw [List.take_of_length_le (by
    rw [(List.perm_insertionSort rankRel _).length_eq, List.length_map]
    exact le_of_lt h)]
  have hp := (List.perm_insertionSort rankRel
    (store.corpus.map (fun i => ⟨i, store.lexScore q i⟩))).map CandidateScore.id
  rw [corpus_map_mk_id] at hp
  exact hp

theorem stage1_id_mem (store : ArtifactStore) (q : String) :
    ∀ c ∈ stage1 store q, c.id ∈ store.corpus := by
  intro c hc
  unfold stage1 at hc
  have h1 := List.mem_of_mem_take hc
  have h2 := (List.perm_insertionSort rankRel _).mem_iff.mp h1
  obtain ⟨i, hi, rfl⟩ := List.mem_map.mp h2
  exact hi

theorem rankedResults_id_sub (store : ArtifactStore) (nq : String) (m : Method)
    (ms : String) (k : Int) :
    ∀ r ∈ rankedResults store nq m ms k,
      r.id ∈ (stage1 store nq).map CandidateScore.id := by
  intro r hr
  unfold rankedResults at hr
  obtain ⟨c, hc, rfl⟩ := List.mem_map.mp hr
  have h1 := List.mem_of_mem_take hc
  have h2 := (List.perm_insertionSort rankRel _).mem_iff.mp h1
  have h3 := List.mem_map_of_mem CandidateScore.id h2
  rw [fusedScores_map_id] at h3
  exact h3

theorem rankedResults_length (store : ArtifactStore) (nq : String) (m : Method)
    (ms : String) (k : Int) :
    (rankedResults store nq m ms k).length = min k.toNat (stage1 store nq).length := by
  simp [rankedResults, List.length_take,
    (List.perm_insertionSort rankRel (fusedScores store nq m (stage1 store nq))).length_eq,
    fusedScores_length]

theorem searchEngine_ok_shape (store : ArtifactStore) (q ms : String) (k : Int)
    (out : SearchResponse) (h : searchEngine store q ms k = Except.ok out) :
    ∃ m, parseMethod ms = some m ∧ 0 < k ∧
      out = ⟨normalizeQuery q, ms, k, rankedResults store (normalizeQuery q) m ms k⟩ := by
  unfold searchEngine at h
  split at h
  · cases h
  · split at h
    · cases h
    · next m hm =>
      split at h
      · cases h
      · next hk =>
        split at h
        · cases h
        · split at h
          · cases h
          · split at h
            · cases h
            · cases h
              exact ⟨m, hm, by omega, rfl⟩

/-! ## Claim: candidate bound -/

/-- C1: Stage-1 returns at most min(300, corpus size) candidates, all of
the corpus when it is smaller than 300, every candidate id comes from the
corpus, and every Stage-2 and Fusion computation, as well as every final
result, operates only on ids present in the Stage-1 output. -/
theorem stage1_candidate_bound (store : ArtifactStore) (q : String) :
    (stage1 store q).length = min candidatePoolBound store.corpus.length ∧
    (store.corpus.length < candidatePoolBound →
      ((stage1 store q).map CandidateScore.id).Perm store.corpus) ∧
    (∀ c ∈ stage1 store q, c.id ∈ store.corpus) ∧
    (∀ m, (fusedScores store q m (stage1 store q)).map CandidateScore.id
        = (stage1 store q).map CandidateScore.id) ∧
    ((stage2Dense store q (stage1 store q)).map CandidateScore.id
        = (stage1 store q).map CandidateScore.id) ∧
    ((stage2Auth store (stage1 store q)).map CandidateScore.id
        = (stage1 store q).map CandidateScore.id) ∧
    (∀ ms k r, r ∈ resultsOf (searchEngine store q ms k) →
      r.id ∈ (stage1 store (normalizeQuery q)).map CandidateScore.id) := by
  refine ⟨stage1_length store q, stage1_perm_of_small store q, stage1_id_mem store q,
    fun m => fusedScores_map_id store q m _, stage2Dense_map_id store q _,
    stage2Auth_map_id store _, ?_⟩
  intro ms k r hr
  cases he : searchEngine store q ms k with
  | error e => rw [he] at hr; simp [resultsOf] at hr
  | ok out =>
    obtain ⟨m, -, -, hout⟩ := searchEngine_ok_shape store q ms k out he
    rw [he] at hr
    subst hout
    simp only [resultsOf] at hr
    exact rankedResults_id_sub store (normalizeQuery q) m ms k r hr

/-- Witness for the candidate-bound claim at the five-paper demoStore. -/
theorem stage1_candidate_bound_witness :
    ((stage1 demoStore "q").map CandidateScore.id).Perm demoStore.corpus :=
  (stage1_candidate_bound demoStore "q").2.1 (by decide)

/-! ## Claim: result sorting and tie-break -/

theorem rankedResults_sorted (store : ArtifactStore) (nq : String) (m : Method)
    (ms : String) (k : Int) :
    List.Pairwise resultRel (rankedResults store nq m ms k) := by
  have hs : List.Pairwise rankRel
      (List.insertionSort rankRel (fusedScores store nq m (stage1 store nq))) :=
    List.sorted_insertionSort rankRel _
  have ht := List.Pairwise.sublist (List.take_sublist k.toNat _) hs
  exact ht.map (formatResult store ms) (fun a b hab => hab)

/-- C3: every final result list is sorted by descending final score, and
candidates with equal final score appear in ascending id order. -/
theorem finalResults_sorted_tiebreak (store : ArtifactStore) (q ms : String) (k : Int) :
    List.Pairwise resultRel (resultsOf (searchEngine store q ms k)) := by
  cases he : searchEngine store q ms k with
  | error e => simp [resultsOf]
  | ok out =>
    obtain ⟨m, -, -, hout⟩ := searchEngine_ok_shape store q ms k out he
    subst hout
    simp only [resultsOf]
    exact rankedResults_sorted store (normalizeQuery q) m ms k

/-! ## Claim: top-k validation and clamping -/

/-- C5: a non-positive top-k is rejected as a validation error before any
stage runs, and an oversized top-k is clamped to the candidate-pool size:
with a corpus of at least 300 papers, top-k 1000 yields exactly 300
results. -/
theorem searchEngine_topk_clamp (store : ArtifactStore) (q ms : String) (k : Int) :
    (k ≤ 0 → ∃ msg, searchEngine store q ms k
        = Except.error (EngineError.validationError msg)) ∧
    ((searchEngine store q ms k).isOk = true →
      (resultsOf (searchEngine store q ms k)).length
        = min k.toNat (stage1 store (normalizeQuery q)).length) ∧
    (300 ≤ store.corpus.length → k = 1000 → (searchEngine store q ms k).isOk = true →
      (resultsOf (searchEngine store q ms k)).length = 300) := by
  have h2 : (searchEngine store q ms k).isOk = true →
      (resultsOf (searchEngine store q ms k)).length
        = min k.toNat (stage1 store (normalizeQuery q)).length := by
    intro hok
    cases he : searchEngine store q ms k with
    | error e => simp [he, Except.isOk, Except.toBool] at hok
    | ok out =>
      obtain ⟨m, -, -, hout⟩ := searchEngine_ok_shape store q ms k out he
      subst hout
      simp only [resultsOf]
      exact rankedResults_length store (normalizeQuery q) m ms k
  refine ⟨?_, h2, ?_⟩
  · intro hk
    by_cases hq : normalizeQuery q = ""
    · exact ⟨"empty query", by simp [searchEngine, hq]⟩
    · cases hpm : parseMethod ms with
      | none => exact ⟨"invalid method", by simp [searchEngine, hq, hpm]⟩
      | some m =>
        exact ⟨"top_k must be a positive integer", by simp [searchEngine, hq, hpm, hk]⟩
  · intro hc hk hok
    subst hk
    rw [h2 hok, stage1_length]
    have hpool : candidatePoolBound = 300 := rfl
    have htn : (1000 : Int).toNat = 1000 := rfl
    rw [hpool, htn]
    omega

set_option maxRecDepth 100000 in
/-- Witness for the top-k claim: a negative top-k is rejected, and top-k
1000 against the 300-paper bigStore returns exactly 300 results. -/
theorem searchEngine_topk_clamp_witness :
    (∃ msg, searchEngine bigStore "graph" "bm25" (-1)
        = Except.error (EngineError.validationError msg)) ∧
    (resultsOf (searchEngine bigStore "graph" "bm25" 1000)).length = 300 :=
  ⟨(searchEngine_topk_clamp bigStore "graph" "bm25" (-1)).1 (by decide),
    (searchEngine_topk_clamp bigStore "graph" "bm25" 1000).2.2 (by decide) rfl
      (by decide)⟩

/-! ## Claim: blank queries are rejected -/

theorem normalizeQuery_blank (s : String) (h : isBlank s = true) :
    normalizeQuery s = "" := by
  have hall : ∀ c ∈ s.data, isWsChar c = true := List.all_eq_true.mp h
  have hwords : queryWords s.data = [] := by
    unfold queryWords
    cases hd : s.data with
    | nil => rfl
    | cons c cs =>
      have hdrop : (c :: cs).dropWhile isWsChar = [] :=
        List.dropWhile_eq_nil_iff.mpr (by intro x hx; exact hall x (hd ▸ hx))
      simp only [List.length_cons, wordsAux, hdrop]
  unfold normalizeQuery
  rw [hwords]
  rfl

/-- C6: an empty or whitespace-only query is rejected with a validation
error before any stage runs, yields no results, and the frontend guard
issues no request for it either. -/
theorem searchEngine_blank_query_rejected (store : ArtifactStore) (q ms : String)
    (k : Int) (h : isBlank q = true) :
    searchEngine store q ms k = Except.error (EngineError.validationError "empty query") ∧
    resultsOf (searchEngine store q ms k) = [] ∧
    handleSearchFires q = false := by
  have hnq := normalizeQuery_blank q h
  have he : searchEngine store q ms k
      = Except.error (EngineError.validationError "empty query") := by
    unfold searchEngine
    rw [if_pos hnq]
  refine ⟨he, by rw [he]; rfl, ?_⟩
  have hall : ∀ c ∈ q.data, isWsChar c = true := List.all_eq_true.mp h
  have hdrop : q.data.dropWhile isWsChar = [] := List.dropWhile_eq_nil_iff.mpr hall
  simp [handleSearchFires, trimChars, hdrop]

/-- Witness for the blank-query claim at a whitespace-only input. -/
theorem searchEngine_blank_query_rejected_witness :
    searchEngine demoStore "   " "bm25" 10
        = Except.error (EngineError.validationError "empty query") ∧
    resultsOf (searchEngine demoStore "   " "bm25" 10) = [] ∧
    handleSearchFires "   " = false :=
  searchEngine_blank_query_rejected demoStore "   " "bm25" 10 (by decide)

/-! ## Claim: determinism -/

/-- C8: search is a pure function of its inputs: identical query, method
and top-k against the same store yield identical results, and
normalization of identical input yields identical output. -/
theorem searchEngine_deterministic (store : ArtifactStore) (q1 q2 ms1 ms2 : String)
    (k1 k2 : Int) (hq : q1 = q2) (hm : ms1 = ms2) (hk : k1 = k2) :
    searchEngine store q1 ms1 k1 = searchEngine store q2 ms2 k2 ∧
    normalizeQuery q1 = normalizeQuery q2 := by
  subst hq; subst hm; subst hk
  exact ⟨rfl, rfl⟩

/-- Witness for the determinism claim at a concrete repeated call. -/
theorem searchEngine_deterministic_witness :
    searchEngine demoStore "graph neural networks" "hybrid" 10
        = searchEngine demoStore "graph neural networks" "hybrid" 10 ∧
    normalizeQuery "graph neural networks" = normalizeQuery "graph neural networks" :=
  searchEngine_deterministic demoStore "graph neural networks" "graph neural networks"
    "hybrid" "hybrid" 10 10 rfl rfl rfl

/-! ## Claim: hybrid fusion weights -/

/-- C9: the hybrid fusion weights are 0.30 for normalized lexical, 0.50
for normalized dense similarity and 0.20 for normalized authority, they
sum to exactly 1, and the hybrid method combines the three normalized
score lists as a weighted sum with exactly these weights. -/
theorem hybrid_fusion_weight_law :
    hybridLexWeight = 3 / 10 ∧ hybridDenseWeight = 1 / 2 ∧ hybridAuthWeight = 1 / 5 ∧
    hybridLexWeight + hybridDenseWeight + hybridAuthWeight = 1 ∧
    (∀ (c : CandidateScore) (cs : List CandidateScore) (a b d : ℚ)
        (la lb ld : List ℚ),
      fuse3 hybridLexWeight hybridDenseWeight hybridAuthWeight
          (c :: cs) (a :: la) (b :: lb) (d :: ld)
        = ⟨c.id, hybridLexWeight * a + hybridDenseWeight * b + hybridAuthWeight * d⟩
            :: fuse3 hybridLexWeight hybridDenseWeight hybridAuthWeight cs la lb ld) ∧
    (∀ (store : ArtifactStore) (q : String) (cands : List CandidateScore),
      fusedScores store q Method.hybrid cands
        = fuse3 hybridLexWeight hybridDenseWeight hybridAuthWeight cands
            (minMaxValues cands) (minMaxValues (stage2Dense store q cands))
            (minMaxValues (stage2Auth store cands))) := by
  refine ⟨?_, ?_, ?_, ?_, fun _ _ _ _ _ _ _ _ => rfl, fun _ _ _ => rfl⟩
  · norm_num [hybridLexWeight]
  · norm_num [hybridDenseWeight]
  · norm_num [hybridAuthWeight]
  · norm_num [hybridLexWeight, hybridDenseWeight, hybridAuthWeight]

/-! ## Claim: cancellation applies no state update -/

theorem LRUCache.get_no_new_key {K V : Type} [DecidableEq K] (c : LRUCache K V)
    (k0 : K) :
    ∀ key, key ∈ ((c.get k0).2).entries.map Prod.fst →
      key ∈ c.entries.map Prod.fst := by
  intro key hkey
  cases hf : c.entries.find? (fun e => decide (e.1 = k0)) with
  | none => simpa [LRUCache.get, hf] using hkey
  | some e =>
    simp only [LRUCache.get, hf, List.map_cons, List.mem_cons] at hkey
    rcases hkey with rfl | hkey2
    · exact List.mem_map_of_mem Prod.fst (List.mem_of_find?_eq_some hf)
    · exact ((List.eraseP_sublist c.entries).map Prod.fst).subset hkey2

theorem searchWithCache_cancelled_no_new_key (store : ArtifactStore)
    (cache : LRUCache CacheKey (List SearchResult)) (q ms : String) (k : Int) :
    ∀ key, key ∈ ((searchWithCache store cache q ms k true).2).entries.map Prod.fst →
      key ∈ cache.entries.map Prod.fst := by
  intro key hkey
  unfold searchWithCache at hkey
  split at hkey
  · exact hkey
  · split at hkey
    · exact hkey
    · split at hkey
      · exact hkey
      · split at hkey
        · exact LRUCache.get_no_new_key cache _ key hkey
        · simpa using hkey

/-- C7: once cancellation is signalled, no state update produced by the
cancelled request is applied: the frontend continuation leaves results,
error and extracted query unchanged; the pipeline inserts no new cache
key on any cancelled path; and on the fresh-computation (cache miss) path
the cache is left exactly unchanged and the outcome is the distinct
abandoned outcome, not an error and not a cache insert. -/
theorem cancelled_request_no_state_update (aborted isCurrent isAbortErr : Bool)
    (outcome : Except String (List SearchResult)) (st : FrontendState)
    (store : ArtifactStore) (cache : LRUCache CacheKey (List SearchResult))
    (q ms : String) (k : Int) :
    (applySearchOutcome true aborted isCurrent isAbortErr outcome st).results
        = st.results ∧
    (applySearchOutcome true aborted isCurrent isAbortErr outcome st).error
        = st.error ∧
    (applySearchOutcome true aborted isCurrent isAbortErr outcome st).extractedQuery
        = st.extractedQuery ∧
    (handleCancelSearch true st).2 = true ∧
    (∀ key, key ∈ ((searchWithCache store cache q ms k true).2).entries.map Prod.fst →
      key ∈ cache.entries.map Prod.fst) ∧
    (∀ m, parseMethod ms = some m →
      (cache.get ⟨normalizeQuery q, m, k⟩).1 = none →
      (searchWithCache store cache q ms k true).2 = cache) ∧
    (∀ m, parseMethod ms = some m → ¬ normalizeQuery q = "" → ¬ k ≤ 0 →
      (cache.get ⟨normalizeQuery q, m, k⟩).1 = none →
      (searchWithCache store cache q ms k true).1 = RequestOutcome.abandoned) := by
  have hfront : (applySearchOutcome true aborted isCurrent isAbortErr outcome st).results
        = st.results ∧
      (applySearchOutcome true aborted isCurrent isAbortErr outcome st).error
        = st.error ∧
      (applySearchOutcome true aborted isCurrent isAbortErr outcome st).extractedQuery
        = st.extractedQuery ∧
      (handleCancelSearch true st).2 = true := by
    cases outcome <;> simp [applySearchOutcome, handleCancelSearch]
  refine ⟨hfront.1, hfront.2.1, hfront.2.2.1, hfront.2.2.2,
    searchWithCache_cancelled_no_new_key store cache q ms k, ?_, ?_⟩
  · intro m hm hmiss
    by_cases hq : normalizeQuery q = ""
    · simp [searchWithCache, hq]
    · by_cases hk : k ≤ 0
      · simp [searchWithCache, hq, hm, hk]
      · simp [searchWithCache, hq, hm, hk, hmiss]
  · intro m hm hq hk hmiss
    simp [searchWithCache, hq, hm, hk, hmiss]

/-- Witness for the cancellation claim: on a fresh cache miss with the
cancellation token set, the pipeline leaves the empty cache untouched and
reports the abandoned outcome. -/
theorem cancelled_request_no_state_update_witness :
    (searchWithCache demoStore emptyResultCache "graph" "hybrid" 10 true).2
        = emptyResultCache ∧
    (searchWithCache demoStore emptyResultCache "graph" "hybrid" 10 true).1
        = RequestOutcome.abandoned :=
  ⟨(cancelled_request_no_state_update true true false (Except.ok []) frontendState0
      demoStore emptyResultCache "graph" "hybrid" 10).2.2.2.2.2.1 Method.hybrid rfl rfl,
    (cancelled_request_no_state_update true true false (Except.ok []) frontendState0
      demoStore emptyResultCache "graph" "hybrid" 10).2.2.2.2.2.2 Method.hybrid rfl
      (by decide) (by decide) rfl⟩

/-! ## Claim: upload extension filter -/

/-- C10: handleFileUpload issues a request exactly when the lowercased
extension is one of pdf, docx, doc, txt; any other extension sets the
error message and leaves the result list unchanged; the accepted set
includes doc even though the message names only PDF, DOCX and TXT. -/
theorem handleFileUpload_extension_filter (name m : String) (st : FrontendState) :
    ((handleFileUpload name m st).1 = UploadOutcome.requestIssued m 10 ↔
      (∃ e, fileExt name = some e ∧ e ∈ supportedTypes)) ∧
    (∀ e, fileExt name = some e → e ∉ supportedTypes →
      (handleFileUpload name m st).1 = UploadOutcome.rejected ∧
      (handleFileUpload name m st).2.results = st.results ∧
      (handleFileUpload name m st).2.error = some uploadErrorMessage) ∧
    "doc" ∈ supportedTypes := by
  have hempty : ("" : String) ∉ supportedTypes := by decide
  cases hfe : fileExt name with
  | none =>
    refine ⟨?_, ?_, by decide⟩
    · simp [handleFileUpload, hfe]
    · intro e he
      cases he
  | some e0 =>
    by_cases hmem : e0 ∈ supportedTypes
    · have hne : ¬(e0 = "" ∨ e0 ∉ supportedTypes) := by
        rintro (rfl | hno)
        · exact hempty hmem
        · exact hno hmem
      refine ⟨?_, ?_, by decide⟩
      · constructor
        · intro _
          exact ⟨e0, rfl, hmem⟩
        · intro _
          simp [handleFileUpload, hfe, if_neg hne]
      · intro e he hnot
        cases he
        exact absurd hmem hnot
    · have hc : e0 = "" ∨ e0 ∉ supportedTypes := Or.inr hmem
      refine ⟨?_, ?_, by decide⟩
      · constructor
        · intro hreq
          rw [show (handleFileUpload name m st).1 = UploadOutcome.rejected
              from by simp [handleFileUpload, hfe, if_pos hc]] at hreq
          cases hreq
        · rintro ⟨e, he, hm2⟩
          cases he
          exact absurd hm2 hmem
      · intro e he _
        cases he
        refine ⟨?_, ?_, ?_⟩ <;> simp [handleFileUpload, hfe, if_pos hc]

/-- Witness for the upload-filter claim at a rejected png file. -/
theorem handleFileUpload_extension_filter_witness :
    (handleFileUpload "image.png" "hybrid" frontendState0).1 = UploadOutcome.rejected ∧
    (handleFileUpload "image.png" "hybrid" frontendState0).2.results
        = frontendState0.results ∧
    (handleFileUpload "image.png" "hybrid" frontendState0).2.error
        = some uploadErrorMessage :=
  (handleFileUpload_extension_filter "image.png" "hybrid" frontendState0).2.1 "png"
    (by decide) (by decide)

/-! ## Claim: LRU cache eviction -/

theorem dropLast_append_of_getLast {α : Type _} {l : List α} {a : α}
    (h : l.getLast? = some a) : l.dropLast ++ [a] = l := by
  induction l with
  | nil => cases h
  | cons x xs ih =>
    cases xs with
    | nil => simp_all
    | cons y ys =>
      rw [List.getLast?_cons_cons] at h
      simp only [List.dropLast_cons₂, List.cons_append, ih h]

/-- C4: the result-cache capacity is 256; a put of a fresh key into a
full cache with distinct keys keeps every entry except the
least-recently-used one, which is evicted, so a subsequent get on the
evicted key misses; and a get hit moves the entry to most-recently-used. -/
theorem resultCache_lru_eviction {K V : Type} [DecidableEq K]
    (c : LRUCache K V) (k : K) (v : V)
    (hcap : c.capacity = resultCacheCapacity)
    (hfull : c.entries.length = resultCacheCapacity)
    (hnodup : (c.entries.map Prod.fst).Nodup)
    (hnew : k ∉ c.entries.map Prod.fst) :
    resultCacheCapacity = 256 ∧
    (c.put k v).entries = (k, v) :: c.entries.dropLast ∧
    (c.put k v).entries.length = resultCacheCapacity ∧
    (∀ e, c.entries.getLast? = some e → ((c.put k v).get e.1).1 = none) ∧
    (∀ (c2 : LRUCache K V) (k2 : K) (v2 : V), (c2.get k2).1 = some v2 →
      (c2.get k2).2.entries.head? = some (k2, v2)) := by
  have hany : c.entries.any (fun e => decide (e.1 = k)) = false := by
    rw [List.any_eq_false]
    intro x hx
    simp only [decide_eq_true_eq]
    intro hxk
    exact hnew (hxk ▸ List.mem_map_of_mem Prod.fst hx)
  have hnotlt : ¬ c.entries.length < c.capacity := by
    rw [hcap, hfull]
    omega
  have hput : (c.put k v).entries = (k, v) :: c.entries.dropLast := by
    simp [LRUCache.put, hany, hnotlt]
  refine ⟨rfl, hput, ?_, ?_, ?_⟩
  · rw [hput]
    simp only [List.length_cons, List.length_dropLast, hfull]
    have : resultCacheCapacity = 256 := rfl
    omega
  · intro e he
    have hsplit : c.entries.dropLast ++ [e] = c.entries := dropLast_append_of_getLast he
    have hmeme : e ∈ c.entries := by
      rw [← hsplit]
      exact List.mem_append_right _ (List.mem_singleton.mpr rfl)
    have hmapsplit : (c.entries.dropLast.map Prod.fst) ++ [e.1]
        = c.entries.map Prod.fst := by
      conv_rhs => rw [← hsplit, List.map_append]
      rfl
    have hnotin : e.1 ∉ c.entries.dropLast.map Prod.fst := by
      have h2 := hnodup
      rw [← hmapsplit] at h2
      have hd := (List.nodup_append.mp h2).2.2
      intro hin
      exact hd hin (List.mem_singleton.mpr rfl)
    have hfind : ((k, v) :: c.entries.dropLast).find? (fun x => decide (x.1 = e.1))
        = none := by
      rw [List.find?_eq_none]
      intro x hx
      simp only [decide_eq_true_eq]
      rcases List.mem_cons.mp hx with rfl | hx2
      · intro hk1
        have hk2 : k = e.1 := hk1
        exact hnew (by rw [hk2]; exact List.mem_map_of_mem Prod.fst hmeme)
      · intro hxe
        exact hnotin (by rw [← hxe]; exact List.mem_map_of_mem Prod.fst hx2)
    simp [LRUCache.get, hput, hfind]
  · intro c2 k2 v2 hget
    unfold LRUCache.get at hget ⊢
    cases hf : c2.entries.find? (fun e => decide (e.1 = k2)) with
    | none =>
      rw [hf] at hget
      exact Option.noConfusion hget
    | some e =>
      rw [hf] at hget
      have h2 : e.2 = v2 := Option.some.inj hget
      have h1 : e.1 = k2 := by
        have := List.find?_some hf
        simpa using this
      exact congrArg some (Prod.ext h1 h2)

set_option maxRecDepth 1000000 in
/-- Witness for the cache claim: after inserting the 256 distinct keys
0 to 255, putting the fresh key 999 evicts exactly the least-recently-used
entry, the first-inserted key 0, and a get on 0 then misses. -/
theorem resultCache_lru_eviction_witness :
    resultCacheCapacity = 256 ∧
    (filledCache.put 999 0).entries = (999, 0) :: filledCache.entries.dropLast ∧
    (filledCache.put 999 0).entries.length = resultCacheCapacity ∧
    ((filledCache.put 999 0).get 0).1 = none := by
  have h := resultCache_lru_eviction filledCache 999 0 (by decide) (by decide)
    (by decide) (by decide)
  exact ⟨h.1, h.2.1, h.2.2.1, h.2.2.2.1 (0, 0) (by decide)⟩

end SeekerScholar
